import Mathlib

/-!
Verification of the CSSM (Coherent Signal-Subspace Method) DoA estimator,
a shallow embedding of `src/doa/cssm.py` (class `CSSM`, methods `_process`
and `_coherent_sum`).

Modelling conventions:
  * Matrix entries live in an arbitrary field `α` with a star operation;
    instantiating `α := ℂ` recovers the complex arithmetic of the source.
  * The out-of-scope collaborators inherited from the parent `MUSIC`
    estimator (`_compute_correlation_matrices`, `_compute_spatial_spectrum`,
    `_peaks1D`, `_subspace_decomposition`, and the elementwise reciprocal
    `1 / P` applied to a spectrum) are passed in as opaque function
    parameters (`corr`, `spect`, `peaks`, `decomp`, `recip`): the claims
    under verification only concern the control flow and the matrix algebra
    written in `cssm.py` itself.
  * `np.linalg.inv` raises `LinAlgError` on an exactly singular matrix; we
    model it as an `Option`, returning `none` exactly when the determinant
    vanishes, and `Option`-propagation models the Python exception aborting
    the whole call.
  * Machine integers: `num_iter` is a Python `int` (possibly negative),
    modelled as `ℤ`; the loop counter `i` is a `ℕ`.
-/

set_option linter.unusedSectionVars false

namespace CSSM

variable {α : Type} [Field α] [StarRing α] [DecidableEq α]
variable {γ : Type} [LinearOrder γ] [AddCommMonoid γ]
variable {σ : Type}
variable {M S : ℕ}

/-- Scan of a list keeping the index of the first strictly-largest element
seen so far; models the scan performed by `np.argmax`.  `bv` is the value at
the current best index `best`, `cur` is the index of the head of the
remaining list. -/
def argmaxGo : List γ → γ → ℕ → ℕ → ℕ
  | [], _, _, best => best
  | x :: xs, bv, cur, best =>
    if bv < x then argmaxGo xs x (cur + 1) cur else argmaxGo xs bv (cur + 1) best

/-- Embedding of `np.argmax` on a list: index of the first maximum, `none` on
the empty list (where `np.argmax` raises `ValueError`). -/
def argmaxIdx : List γ → Option ℕ
  | [] => none
  | x :: xs => some (argmaxGo xs x 1 0)

/-- Per-bin aggregate magnitude
`np.sum(np.sum(abs(X[:,self.freq_bins,:]), axis=0), axis=1)` of
`CSSM._process`: for each active bin, the sum over sensors and time samples
of the magnitude of the observation tensor.  The magnitude function `mag`
(numpy `abs`) is a parameter so that the development stays computable. -/
def binEnergies (mag : α → γ) (X : Fin M → ℕ → Fin S → α) (bins : List ℕ) : List γ :=
  bins.map fun b => Finset.univ.sum fun m : Fin M => Finset.univ.sum fun t : Fin S => mag (X m b t)

/-- Reference-frequency selection of `CSSM._process`:
`f0 = np.argmax(...)` followed by `f0 = self.freq_bins[f0]`. -/
def selectF0 (mag : α → γ) (X : Fin M → ℕ → Fin S → α) (bins : List ℕ) : Option ℕ :=
  (argmaxIdx (binEnergies mag X bins)).map fun idx => bins.getD idx 0

/-- Augmented basis `np.c_[A, B]` of `CSSM._coherent_sum`, for steering
vectors `av` (one `M`-vector per direction index) and current direction list
`b` with `p = b.length`: column `c < p` is the steering vector of direction
`b[c]`, and column `c ≥ p` is the standard basis vector `e_c` (the block `B`
built by `np.concatenate((np.zeros([M-p, p]), np.identity(M-p)), axis=1).T`,
whose columns are the last `M - p` standard basis vectors). -/
def augBasis (av : Fin M → ℕ → α) (b : List ℕ) : Matrix (Fin M) (Fin M) α :=
  Matrix.of fun m c =>
    if h : (c : ℕ) < b.length then av m (b.get ⟨c, h⟩)
    else if (m : ℕ) = (c : ℕ) then 1 else 0

/-- Matrix inverse as computed in exact arithmetic (defined value; used only
when the determinant is nonzero). -/
def matInvD (A : Matrix (Fin M) (Fin M) α) : Matrix (Fin M) (Fin M) α :=
  A.det⁻¹ • A.adjugate

/-- Embedding of `np.linalg.inv`: `none` on an exactly singular input, where
numpy raises `LinAlgError`. -/
def matInv (A : Matrix (Fin M) (Fin M) α) : Option (Matrix (Fin M) (Fin M) α) :=
  if A.det = 0 then none else some (matInvD A)

/-- Defined value of the focusing transform
`Tj = np.dot(np.c_[A0, B], np.linalg.inv(np.c_[Aj, B]))` of
`CSSM._coherent_sum`. -/
def focusTD (modeVec : ℕ → Fin M → ℕ → α) (f0 k : ℕ) (b : List ℕ) :
    Matrix (Fin M) (Fin M) α :=
  augBasis (modeVec f0) b * matInvD (augBasis (modeVec k) b)

/-- Focusing transform with the singular case made explicit: `none` exactly
when `np.linalg.inv(np.c_[Aj, B])` raises. -/
def focusT (modeVec : ℕ → Fin M → ℕ → α) (f0 k : ℕ) (b : List ℕ) :
    Option (Matrix (Fin M) (Fin M) α) :=
  (matInv (augBasis (modeVec k) b)).map fun inv => augBasis (modeVec f0) b * inv

/-- Loop of `CSSM._coherent_sum` over the remaining bin positions `js`,
accumulator `R`:
`R = R + np.dot(np.dot(Tj, C_hat[j,:,:]), np.conjugate(Tj).T)`. -/
def coherentSumGo (modeVec : ℕ → Fin M → ℕ → α) (bins : List ℕ) (f0 : ℕ)
    (beta : List (List ℕ)) (Chat : ℕ → Matrix (Fin M) (Fin M) α) :
    List ℕ → Matrix (Fin M) (Fin M) α → Option (Matrix (Fin M) (Fin M) α)
  | [], R => some R
  | j :: js, R =>
    match focusT modeVec f0 (bins.getD j 0) (beta.getD j []) with
    | none => none
    | some Tj =>
      coherentSumGo modeVec bins f0 beta Chat js (R + Tj * Chat j * Tj.conjTranspose)

/-- Embedding of `CSSM._coherent_sum`: starting from the zero matrix,
iterate over `j in range(len(self.freq_bins))`. -/
def coherentSum (modeVec : ℕ → Fin M → ℕ → α) (bins : List ℕ) (f0 : ℕ)
    (beta : List (List ℕ)) (Chat : ℕ → Matrix (Fin M) (Fin M) α) :
    Option (Matrix (Fin M) (Fin M) α) :=
  coherentSumGo modeVec bins f0 beta Chat (List.range bins.length) 0

/-- Seeding loop of `CSSM._process` unrolled from the right: `pk k` is the
peak list obtained for bin position `k`; returns
(`beta` list, `invalid` list, final `self.src_idx`).  The `src_idx` is
appended to `beta` unconditionally (the `else:` in the source is commented
out), `k` is appended to `invalid` when fewer than `numSrc` peaks were
found, and `self.src_idx` retains the last bin's peak list. -/
def seedAux (pk : ℕ → List ℕ) (numSrc : ℕ) : ℕ → List (List ℕ) × List ℕ × List ℕ
  | 0 => ([], [], [])
  | n + 1 =>
    let prev := seedAux pk numSrc n
    let src := pk n
    (prev.1 ++ [src], (if src.length < numSrc then prev.2.1 ++ [n] else prev.2.1), src)

/-- Seeding pass of `CSSM._process`: for each bin position `k`, the peak
list is `peaks` applied to the elementwise reciprocal of the spatial
spectrum of `C_hat[k]` at frequency `freq_bins[k]`
(`self.P = 1 / self._compute_spatial_spectrum(C_hat[k,:,:], self.freq_bins[k]);
self._peaks1D()`).  Modelled from the spec: `spect`, `recip` and `peaks`
stand for the out-of-scope collaborators `_compute_spatial_spectrum`, the
elementwise `1 / ·`, and `_peaks1D` of the parent MUSIC estimator. -/
def seed (spect : Matrix (Fin M) (Fin M) α → ℕ → σ) (recip : σ → σ)
    (peaks : σ → List ℕ) (Chat : ℕ → Matrix (Fin M) (Fin M) α)
    (bins : List ℕ) (numSrc : ℕ) : List (List ℕ) × List ℕ × List ℕ :=
  seedAux (fun k => peaks (recip (spect (Chat k) (bins.getD k 0)))) numSrc bins.length

/-- Embedding of `desired_freq = np.delete(self.freq_bins, invalid)`:
remove the elements of `l` whose positions occur in `idxs`.  (Dead local in
the source: computed during seeding but never read afterwards.) -/
def deleteIdxs (l : List ℕ) (idxs : List ℕ) : List ℕ :=
  ((List.range l.length).filter (fun j => j ∉ idxs)).map fun j => l.getD j 0

/-- Guard of the main refinement loop of `CSSM._process`:
`while(i < self.iter or (len(self.src_idx) < self.num_src and i < 20))`. -/
def loopGuard (numIter : ℤ) (numSrc : ℕ) (i : ℕ) (src : List ℕ) : Prop :=
  (i : ℤ) < numIter ∨ (src.length < numSrc ∧ i < 20)

instance loopGuardDecidable (numIter : ℤ) (numSrc : ℕ) (i : ℕ) (src : List ℕ) :
    Decidable (loopGuard numIter numSrc i src) :=
  inferInstanceAs (Decidable (_ ∨ _))

/-- Mutable state of the main refinement loop of `CSSM._process`: the
per-bin direction lists `beta`, the most recent peak list `self.src_idx`,
and the iteration counter `i`. -/
structure LoopState where
  beta : List (List ℕ)
  srcIdx : List ℕ
  i : ℕ
  deriving DecidableEq

/-- One body execution of the main loop of `CSSM._process`:
coherent sum, subspace decomposition (collaborator `decomp`, returning the
noise basis `En`), projector `cross = np.dot(En, np.conjugate(En).T)`,
spatial spectrum at `f0`, peak search, then
`beta = np.tile(self.src_idx, (self.num_freq, 1))` and `i += 1`.
`decomp`, `spect` and `peaks` are modelled from the spec: they stand for the
out-of-scope collaborators `_subspace_decomposition`,
`_compute_spatial_spectrum` and `_peaks1D`. -/
def stepBody (modeVec : ℕ → Fin M → ℕ → α) (bins : List ℕ) (f0 : ℕ)
    (Chat : ℕ → Matrix (Fin M) (Fin M) α)
    (decomp : Matrix (Fin M) (Fin M) α → Matrix (Fin M) (Fin M) α)
    (spect : Matrix (Fin M) (Fin M) α → ℕ → σ) (peaks : σ → List ℕ)
    (st : LoopState) : Option LoopState :=
  match coherentSum modeVec bins f0 st.beta Chat with
  | none => none
  | some R =>
    let En := decomp R
    let cross := En * En.conjTranspose
    let src := peaks (spect cross f0)
    some ⟨List.replicate bins.length src, src, st.i + 1⟩

/-- Main refinement loop of `CSSM._process`, fuelled.  The fuel is a bound
on the remaining iterations, used only to make the recursion structural;
`process` supplies fuel which the guard can never exhaust. -/
def runLoop (numIter : ℤ) (numSrc : ℕ) (modeVec : ℕ → Fin M → ℕ → α)
    (bins : List ℕ) (f0 : ℕ) (Chat : ℕ → Matrix (Fin M) (Fin M) α)
    (decomp : Matrix (Fin M) (Fin M) α → Matrix (Fin M) (Fin M) α)
    (spect : Matrix (Fin M) (Fin M) α → ℕ → σ) (peaks : σ → List ℕ) :
    ℕ → LoopState → Option LoopState
  | 0, st => some st
  | fuel + 1, st =>
    if loopGuard numIter numSrc st.i st.srcIdx then
      match stepBody modeVec bins f0 Chat decomp spect peaks st with
      | none => none
      | some st2 => runLoop numIter numSrc modeVec bins f0 Chat decomp spect peaks fuel st2
    else some st

/-- Embedding of `CSSM._process`: correlation matrices (collaborator
`corr`, computed once), seeding pass, dead `desired_freq` computation,
reference-frequency selection, then the main refinement loop started at
`i = 0` with the seeded `beta` and the last bin's `src_idx`.  Returns the
final `self.src_idx` together with the number of loop iterations executed,
or `none` when the call aborts with a Python exception. -/
def process (numIter : ℤ) (numSrc : ℕ) (modeVec : ℕ → Fin M → ℕ → α)
    (bins : List ℕ) (X : Fin M → ℕ → Fin S → α) (mag : α → γ)
    (corr : (Fin M → ℕ → Fin S → α) → ℕ → Matrix (Fin M) (Fin M) α)
    (spect : Matrix (Fin M) (Fin M) α → ℕ → σ) (recip : σ → σ)
    (peaks : σ → List ℕ)
    (decomp : Matrix (Fin M) (Fin M) α → Matrix (Fin M) (Fin M) α) :
    Option (List ℕ × ℕ) :=
  let Chat := corr X
  let sd := seed spect recip peaks Chat bins numSrc
  let _desiredFreq := deleteIdxs bins sd.2.1
  match selectF0 mag X bins with
  | none => none
  | some f0 =>
    (runLoop numIter numSrc modeVec bins f0 Chat decomp spect peaks
        (numIter.toNat + 20) ⟨sd.1, sd.2.2, 0⟩).map fun st => (st.srcIdx, st.i)

/-! Concrete instantiation used to exercise the embedding on executable
inputs: one sensor, one snapshot, one active frequency bin, rational data,
and collaborators returning constant values. -/

/-- Steering-vector dictionary of the concrete instance: every steering
vector is the constant vector 1. -/
def trivModeVec : ℕ → Fin 1 → ℕ → ℚ := fun _ _ _ => 1

/-- Per-bin covariance matrices of the concrete instance. -/
def trivChat : ℕ → Matrix (Fin 1) (Fin 1) ℚ := fun _ => 1

/-- Correlation-estimator collaborator of the concrete instance. -/
def trivCorr : (Fin 1 → ℕ → Fin 1 → ℚ) → ℕ → Matrix (Fin 1) (Fin 1) ℚ :=
  fun _ => trivChat

/-- Subspace-decomposition collaborator of the concrete instance. -/
def trivDecomp : Matrix (Fin 1) (Fin 1) ℚ → Matrix (Fin 1) (Fin 1) ℚ := fun _ => 0

/-- Spatial-spectrum collaborator of the concrete instance (spectrum values
are irrelevant to the claims, so the spectrum type is `Unit`). -/
def trivSpect : Matrix (Fin 1) (Fin 1) ℚ → ℕ → Unit := fun _ _ => ()

/-- Elementwise-reciprocal collaborator of the concrete instance. -/
def trivRecip : Unit → Unit := fun u => u

/-- Peak-search collaborator of the concrete instance: always returns the
single direction index 0. -/
def trivPeaks : Unit → List ℕ := fun _ => [0]

/-- Observation tensor of the concrete instance. -/
def trivX : Fin 1 → ℕ → Fin 1 → ℚ := fun _ _ _ => 1

/-- Magnitude function of the concrete instance. -/
def trivMag : ℚ → ℚ := fun q => q

/-- Degenerate steering-vector dictionary: all steering vectors are zero,
making every augmented basis with at least one steering column singular. -/
def zeroModeVec : ℕ → Fin 1 → ℕ → ℚ := fun _ _ _ => 0

/-- Observation tensor whose aggregate magnitude is larger on bin 7 than on
any other bin. -/
def witX : Fin 1 → ℕ → Fin 1 → ℚ := fun _ b _ => if b = 7 then 2 else 1

/-! Helper lemmas about the loop embedding. -/

theorem stepBody_some_shape (modeVec : ℕ → Fin M → ℕ → α) (bins : List ℕ) (f0 : ℕ)
    (Chat : ℕ → Matrix (Fin M) (Fin M) α)
    (decomp : Matrix (Fin M) (Fin M) α → Matrix (Fin M) (Fin M) α)
    (spect : Matrix (Fin M) (Fin M) α → ℕ → σ) (peaks : σ → List ℕ)
    (st st2 : LoopState)
    (h : stepBody modeVec bins f0 Chat decomp spect peaks st = some st2) :
    st2.i = st.i + 1 ∧ st2.beta = List.replicate bins.length st2.srcIdx := by
  unfold stepBody at h
  cases hc : coherentSum modeVec bins f0 st.beta Chat with
  | none => rw [hc] at h; exact absurd h (by simp)
  | some R =>
    rw [hc] at h
    simp only [Option.some.injEq] at h
    subst h
    exact ⟨rfl, rfl⟩

theorem runLoop_at_least (numIter : ℤ) (numSrc : ℕ) (modeVec : ℕ → Fin M → ℕ → α)
    (bins : List ℕ) (f0 : ℕ) (Chat : ℕ → Matrix (Fin M) (Fin M) α)
    (decomp : Matrix (Fin M) (Fin M) α → Matrix (Fin M) (Fin M) α)
    (spect : Matrix (Fin M) (Fin M) α → ℕ → σ) (peaks : σ → List ℕ) :
    ∀ (fuel : ℕ) (st st2 : LoopState),
      runLoop numIter numSrc modeVec bins f0 Chat decomp spect peaks fuel st = some st2 →
      numIter ≤ (st2.i : ℤ) ∨ st2.i = st.i + fuel := by
  intro fuel
  induction fuel with
  | zero =>
    intro st st2 h
    unfold runLoop at h
    simp only [Option.some.injEq] at h
    subst h
    exact Or.inr rfl
  | succ n ih =>
    intro st st2 h
    unfold runLoop at h
    by_cases hg : loopGuard numIter numSrc st.i st.srcIdx
    · rw [if_pos hg] at h
      cases hb : stepBody modeVec bins f0 Chat decomp spect peaks st with
      | none => rw [hb] at h; exact absurd h (by simp)
      | some stm =>
        rw [hb] at h
        have hi := (stepBody_some_shape _ _ _ _ _ _ _ _ _ hb).1
        rcases ih stm st2 h with h1 | h2
        · exact Or.inl h1
        · exact Or.inr (by omega)
    · rw [if_neg hg] at h
      simp only [Option.some.injEq] at h
      subst h
      unfold loopGuard at hg
      push_neg at hg
      exact Or.inl hg.1

theorem runLoop_stops (numIter : ℤ) (numSrc : ℕ) (modeVec : ℕ → Fin M → ℕ → α)
    (bins : List ℕ) (f0 : ℕ) (Chat : ℕ → Matrix (Fin M) (Fin M) α)
    (decomp : Matrix (Fin M) (Fin M) α → Matrix (Fin M) (Fin M) α)
    (spect : Matrix (Fin M) (Fin M) α → ℕ → σ) (peaks : σ → List ℕ) :
    ∀ (fuel : ℕ) (st st2 : LoopState),
      runLoop numIter numSrc modeVec bins f0 Chat decomp spect peaks fuel st = some st2 →
      ¬ loopGuard numIter numSrc st2.i st2.srcIdx ∨ st2.i = st.i + fuel := by
  intro fuel
  induction fuel with
  | zero =>
    intro st st2 h
    unfold runLoop at h
    simp only [Option.some.injEq] at h
    subst h
    exact Or.inr rfl
  | succ n ih =>
    intro st st2 h
    unfold runLoop at h
    by_cases hg : loopGuard numIter numSrc st.i st.srcIdx
    · rw [if_pos hg] at h
      cases hb : stepBody modeVec bins f0 Chat decomp spect peaks st with
      | none => rw [hb] at h; exact absurd h (by simp)
      | some stm =>
        rw [hb] at h
        have hi := (stepBody_some_shape _ _ _ _ _ _ _ _ _ hb).1
        rcases ih stm st2 h with h1 | h2
        · exact Or.inl h1
        · exact Or.inr (by omega)
    · rw [if_neg hg] at h
      simp only [Option.some.injEq] at h
      subst h
      exact Or.inl hg

theorem runLoop_beta_shape (numIter : ℤ) (numSrc : ℕ) (modeVec : ℕ → Fin M → ℕ → α)
    (bins : List ℕ) (f0 : ℕ) (Chat : ℕ → Matrix (Fin M) (Fin M) α)
    (decomp : Matrix (Fin M) (Fin M) α → Matrix (Fin M) (Fin M) α)
    (spect : Matrix (Fin M) (Fin M) α → ℕ → σ) (peaks : σ → List ℕ) :
    ∀ (fuel : ℕ) (st st2 : LoopState),
      runLoop numIter numSrc modeVec bins f0 Chat decomp spect peaks fuel st = some st2 →
      st2 = st ∨ st2.beta = List.replicate bins.length st2.srcIdx := by
  intro fuel
  induction fuel with
  | zero =>
    intro st st2 h
    unfold runLoop at h
    simp only [Option.some.injEq] at h
    exact Or.inl h.symm
  | succ n ih =>
    intro st st2 h
    unfold runLoop at h
    by_cases hg : loopGuard numIter numSrc st.i st.srcIdx
    · rw [if_pos hg] at h
      cases hb : stepBody modeVec bins f0 Chat decomp spect peaks st with
      | none => rw [hb] at h; exact absurd h (by simp)
      | some stm =>
        rw [hb] at h
        have hbeta := (stepBody_some_shape _ _ _ _ _ _ _ _ _ hb).2
        rcases ih stm st2 h with h1 | h2
        · subst h1; exact Or.inr hbeta
        · exact Or.inr h2
    · rw [if_neg hg] at h
      simp only [Option.some.injEq] at h
      exact Or.inl h.symm

theorem trivStep (st : LoopState) (h : st.beta.getD 0 [] = [0]) :
    stepBody trivModeVec [0] 0 trivChat trivDecomp trivSpect trivPeaks st
      = some ⟨[[0]], [0], st.i + 1⟩ := by
  have hdet : (augBasis (trivModeVec 0) [0] : Matrix (Fin 1) (Fin 1) ℚ).det ≠ 0 := by
    rw [Matrix.det_fin_one]
    simp [augBasis, trivModeVec]
  have hr : List.range ([0] : List ℕ).length = [0] := rfl
  unfold stepBody coherentSum
  simp only [hr, coherentSumGo, List.getD_cons_zero, h, focusT, matInv, if_neg hdet,
    Option.map_some]
  simp [trivDecomp, trivSpect, trivPeaks]

theorem trivRunLoop (numIter : ℤ) :
    ∀ (fuel i : ℕ), numIter.toNat ≤ i + fuel →
      runLoop numIter 1 trivModeVec [0] 0 trivChat trivDecomp trivSpect trivPeaks fuel
        ⟨[[0]], [0], i⟩ = some ⟨[[0]], [0], max i numIter.toNat⟩ := by
  intro fuel
  induction fuel with
  | zero =>
    intro i hle
    unfold runLoop
    have hmax : max i numIter.toNat = i := by omega
    rw [hmax]
  | succ n ih =>
    intro i hle
    unfold runLoop
    dsimp only
    by_cases hg : loopGuard numIter 1 i [0]
    · rw [if_pos hg]
      rw [trivStep ⟨[[0]], [0], i⟩ rfl]
      dsimp only
      have hi : (i : ℤ) < numIter := by
        unfold loopGuard at hg
        rcases hg with h1 | h2
        · exact h1
        · exact absurd h2.1 (by simp)
      rw [ih (i + 1) (by omega)]
      have hmax : max (i + 1) numIter.toNat = max i numIter.toNat := by omega
      rw [hmax]
    · rw [if_neg hg]
      have hi : numIter ≤ (i : ℤ) := by
        unfold loopGuard at hg
        push_neg at hg
        exact hg.1
      have hmax : max i numIter.toNat = i := by omega
      rw [hmax]

theorem runLoop_guard_false (numIter : ℤ) (numSrc : ℕ) (modeVec : ℕ → Fin M → ℕ → α)
    (bins : List ℕ) (f0 : ℕ) (Chat : ℕ → Matrix (Fin M) (Fin M) α)
    (decomp : Matrix (Fin M) (Fin M) α → Matrix (Fin M) (Fin M) α)
    (spect : Matrix (Fin M) (Fin M) α → ℕ → σ) (peaks : σ → List ℕ)
    (st : LoopState) (hg : ¬ loopGuard numIter numSrc st.i st.srcIdx) :
    ∀ fuel, runLoop numIter numSrc modeVec bins f0 Chat decomp spect peaks fuel st
      = some st := by
  intro fuel
  cases fuel with
  | zero => rfl
  | succ n => unfold runLoop; rw [if_neg hg]

theorem seedAux_src (pk : ℕ → List ℕ) (numSrc : ℕ) (n : ℕ) (hn : 0 < n) :
    (seedAux pk numSrc n).2.2 = pk (n - 1) := by
  cases n with
  | zero => exact absurd hn (by omega)
  | succ m => rfl

theorem seedAux_beta (pk : ℕ → List ℕ) (numSrc : ℕ) :
    ∀ n, (seedAux pk numSrc n).1 = (List.range n).map pk := by
  intro n
  induction n with
  | zero => rfl
  | succ m ih =>
    show (seedAux pk numSrc m).1 ++ [pk m] = (List.range (m + 1)).map pk
    rw [List.range_succ, List.map_append, ih]
    rfl

theorem argmaxGo_spec (l : List γ) :
    ∀ (d : List γ) (cur best : ℕ), best < cur → cur ≤ l.length →
      ∀ (hbl : best < l.length), d = l.drop cur →
      (∀ j (hj : j < l.length), j < cur → l.get ⟨j, hj⟩ ≤ l.get ⟨best, hbl⟩) →
      (∀ j (hj : j < l.length), j < best → l.get ⟨j, hj⟩ < l.get ⟨best, hbl⟩) →
      ∃ hr : argmaxGo d (l.get ⟨best, hbl⟩) cur best < l.length,
        (∀ j (hj : j < l.length),
            l.get ⟨j, hj⟩ ≤ l.get ⟨argmaxGo d (l.get ⟨best, hbl⟩) cur best, hr⟩) ∧
        (∀ j (hj : j < l.length), j < argmaxGo d (l.get ⟨best, hbl⟩) cur best →
            l.get ⟨j, hj⟩ < l.get ⟨argmaxGo d (l.get ⟨best, hbl⟩) cur best, hr⟩) := by
  intro d
  induction d with
  | nil =>
    intro cur best hbc hcl hbl hd h1 h2
    have hcur : l.length ≤ cur := List.drop_eq_nil_iff.mp hd.symm
    simp only [argmaxGo]
    exact ⟨hbl, fun j hj => h1 j hj (by omega), fun j hj hlt => h2 j hj hlt⟩
  | cons x xs ih =>
    intro cur best hbc hcl hbl hd h1 h2
    have hcur : cur < l.length := by
      by_contra hc
      rw [List.drop_eq_nil_iff.mpr (by omega)] at hd
      exact absurd hd (by simp)
    have hdrop := List.drop_eq_getElem_cons hcur
    rw [hdrop] at hd
    have hx : x = l.get ⟨cur, hcur⟩ := by
      have := (List.cons.injEq _ _ _ _).mp hd
      rw [this.1, List.get_eq_getElem]
    have hxs : xs = l.drop (cur + 1) := ((List.cons.injEq _ _ _ _).mp hd).2
    by_cases hlt : l.get ⟨best, hbl⟩ < x
    · subst hx
      subst hxs
      simp only [argmaxGo, if_pos hlt]
      exact ih (cur + 1) cur (by omega) (by omega) hcur rfl
        (fun j hj hjc => by
          by_cases hje : j = cur
          · subst hje; exact le_refl _
          · exact le_of_lt (lt_of_le_of_lt (h1 j hj (by omega)) hlt))
        (fun j hj hjc => lt_of_le_of_lt (h1 j hj (by omega)) hlt)
    · subst hx
      subst hxs
      simp only [argmaxGo, if_neg hlt]
      exact ih (cur + 1) best (by omega) (by omega) hbl rfl
        (fun j hj hjc => by
          by_cases hje : j = cur
          · subst hje; exact not_lt.mp hlt
          · exact h1 j hj (by omega))
        h2

theorem argmaxIdx_spec (l : List γ) (hne : l ≠ []) :
    ∃ (idx : ℕ) (hidx : idx < l.length),
      argmaxIdx l = some idx ∧
      (∀ j (hj : j < l.length), l.get ⟨j, hj⟩ ≤ l.get ⟨idx, hidx⟩) ∧
      (∀ j (hj : j < l.length), j < idx → l.get ⟨j, hj⟩ < l.get ⟨idx, hidx⟩) := by
  cases l with
  | nil => exact absurd rfl hne
  | cons x xs =>
    have h0 : (0 : ℕ) < (x :: xs).length := by simp
    obtain ⟨hr, hmax, hfirst⟩ := argmaxGo_spec (x :: xs) xs 1 0 (by omega) (by simp) h0 rfl
      (fun j hj hlt => by
        have hj0 : j = 0 := by omega
        subst hj0
        exact le_refl _)
      (fun j hj hlt => absurd hlt (by omega))
    exact ⟨argmaxGo xs x 1 0, hr, rfl, hmax, hfirst⟩

theorem selectF0_of_ne_nil (mag : α → γ) (X : Fin M → ℕ → Fin S → α) (bins : List ℕ)
    (hne : bins ≠ []) :
    ∃ idx, idx < bins.length ∧ selectF0 mag X bins = some (bins.getD idx 0) := by
  have hne2 : binEnergies mag X bins ≠ [] := by
    unfold binEnergies
    simpa using hne
  obtain ⟨idx, hidx, heq, _, _⟩ := argmaxIdx_spec (binEnergies mag X bins) hne2
  have hlen : (binEnergies mag X bins).length = bins.length := by
    unfold binEnergies
    simp
  refine ⟨idx, by omega, ?_⟩
  unfold selectF0
  rw [heq]
  rfl

theorem matInvD_eq_inv (A : Matrix (Fin M) (Fin M) α) : matInvD A = A⁻¹ := by
  unfold matInvD
  rw [Matrix.inv_def, Ring.inverse_eq_inv']

theorem matInvD_mul_cancel (A : Matrix (Fin M) (Fin M) α) (h : A.det ≠ 0) :
    A * matInvD A = 1 := by
  rw [matInvD_eq_inv]
  exact Matrix.mul_nonsing_inv A (isUnit_iff_ne_zero.mpr h)

theorem augBasis_congr (av av2 : Fin M → ℕ → α) (b : List ℕ)
    (h : ∀ (m : Fin M) (d : ℕ), d ∈ b → av m d = av2 m d) :
    augBasis av b = augBasis av2 b := by
  unfold augBasis
  ext m c
  by_cases hc : (c : ℕ) < b.length
  · rw [Matrix.of_apply, Matrix.of_apply, dif_pos hc, dif_pos hc,
      h m (b.get ⟨c, hc⟩) (List.get_mem b c hc)]
  · rw [Matrix.of_apply, Matrix.of_apply, dif_neg hc, dif_neg hc]

theorem coherentSumGo_eq_sum (modeVec : ℕ → Fin M → ℕ → α) (bins : List ℕ) (f0 : ℕ)
    (beta : List (List ℕ)) (Chat : ℕ → Matrix (Fin M) (Fin M) α) :
    ∀ (js : List ℕ) (R : Matrix (Fin M) (Fin M) α),
      (∀ j ∈ js, (augBasis (modeVec (bins.getD j 0)) (beta.getD j [])).det ≠ 0) →
      coherentSumGo modeVec bins f0 beta Chat js R
        = some (R + (js.map fun j =>
            focusTD modeVec f0 (bins.getD j 0) (beta.getD j []) * Chat j *
              (focusTD modeVec f0 (bins.getD j 0) (beta.getD j [])).conjTranspose).sum) := by
  intro js
  induction js with
  | nil =>
    intro R h
    simp [coherentSumGo]
  | cons j js ih =>
    intro R h
    have hj := h j (List.mem_cons_self j js)
    unfold coherentSumGo focusT matInv
    rw [if_neg hj]
    simp only [Option.map_some']
    rw [ih _ (fun k hk => h k (List.mem_cons_of_mem j hk))]
    rw [List.map_cons, List.sum_cons, ← add_assoc]
    rfl

theorem coherentSumGo_none (modeVec : ℕ → Fin M → ℕ → α) (bins : List ℕ) (f0 : ℕ)
    (beta : List (List ℕ)) (Chat : ℕ → Matrix (Fin M) (Fin M) α) :
    ∀ (js : List ℕ) (R : Matrix (Fin M) (Fin M) α),
      (∃ j ∈ js, (augBasis (modeVec (bins.getD j 0)) (beta.getD j [])).det = 0) →
      coherentSumGo modeVec bins f0 beta Chat js R = none := by
  intro js
  induction js with
  | nil =>
    intro R h
    obtain ⟨j, hj, _⟩ := h
    exact absurd hj (by simp)
  | cons j js ih =>
    intro R h
    by_cases hj : (augBasis (modeVec (bins.getD j 0)) (beta.getD j [])).det = 0
    · unfold coherentSumGo focusT matInv
      rw [if_pos hj]
      rfl
    · obtain ⟨j2, hj2, hdet2⟩ := h
      have hj2m : j2 ∈ js := by
        rcases List.mem_cons.mp hj2 with he | hm
        · subst he; exact absurd hdet2 hj
        · exact hm
      unfold coherentSumGo focusT matInv
      rw [if_neg hj]
      simp only [Option.map_some']
      exact ih _ ⟨j2, hj2m, hdet2⟩

/-! Claim theorems. -/

/-- C1: the main refinement loop stops exactly when `i ≥ num_iter` AND
(`len(src_idx) ≥ num_src` OR `i ≥ 20`): the loop guard is equivalent to the
negation of that stop condition; every successful full-fuel run starting at
`i = 0` performs at least `num_iter` iterations; and when after `num_iter`
iterations the peak search holds fewer than `num_src` directions (the
20-iteration hard ceiling of the stop condition not yet reached) the guard
still holds, so the loop keeps executing further iterations. -/
theorem claim_C1_termination_condition (numIter : ℤ) (numSrc : ℕ)
    (modeVec : ℕ → Fin M → ℕ → α) (bins : List ℕ) (f0 : ℕ)
    (Chat : ℕ → Matrix (Fin M) (Fin M) α)
    (decomp : Matrix (Fin M) (Fin M) α → Matrix (Fin M) (Fin M) α)
    (spect : Matrix (Fin M) (Fin M) α → ℕ → σ) (peaks : σ → List ℕ)
    (i : ℕ) (src : List ℕ) (st st2 : LoopState) :
    (loopGuard numIter numSrc i src ↔
      ¬ (numIter ≤ (i : ℤ) ∧ (numSrc ≤ src.length ∨ 20 ≤ i)))
    ∧ (st.i = 0 →
        runLoop numIter numSrc modeVec bins f0 Chat decomp spect peaks
          (numIter.toNat + 20) st = some st2 →
        numIter ≤ (st2.i : ℤ))
    ∧ (numIter ≤ (i : ℤ) → src.length < numSrc → i < 20 →
        loopGuard numIter numSrc i src) := by
  refine ⟨?_, ?_, fun h1 h2 h3 => Or.inr ⟨h2, h3⟩⟩
  · unfold loopGuard
    omega
  · intro h0 hrun
    rcases runLoop_at_least numIter numSrc modeVec bins f0 Chat decomp spect peaks
      (numIter.toNat + 20) st st2 hrun with h | h
    · exact h
    · omega

/-- Witness for C1: with `num_iter = 5` the concrete run performs 5
iterations (at least `num_iter`), and the guard holds at `i = 7` with an
empty peak list. -/
theorem claim_C1_termination_condition_witness :
    (5 : ℤ) ≤ ((max 0 (5 : ℤ).toNat : ℕ) : ℤ) ∧ loopGuard 5 1 7 [] := by
  have H := claim_C1_termination_condition 5 1 trivModeVec [0] 0 trivChat trivDecomp
    trivSpect trivPeaks 7 ([] : List ℕ) ⟨[[0]], [0], 0⟩ ⟨[[0]], [0], max 0 (5 : ℤ).toNat⟩
  exact ⟨H.2.1 rfl (trivRunLoop 5 ((5 : ℤ).toNat + 20) 0 (by omega)),
    H.2.2 (by decide) (by decide) (by decide)⟩

/-- C2 is refuted by the code: with `num_iter = 21` (and a peak search that
always finds enough directions) `_process` executes 21 main-loop
iterations, exceeding the claimed hard ceiling of 20.  The guard
`i < self.iter or (len(src_idx) < num_src and i < 20)` caps only the
insufficient-peaks branch at 20, not the `i < self.iter` branch, contrary
to the comment `maximum number of iterations is 20` in the source. -/
theorem claim_C2_ceiling_violated_at_21 :
    process 21 1 trivModeVec [0] trivX trivMag trivCorr trivSpect trivRecip trivPeaks
      trivDecomp = some ([0], 21) := by
  have h3 := trivRunLoop 21 ((21 : ℤ).toNat + 20) 0 (by omega)
  show (runLoop 21 1 trivModeVec [0] 0 trivChat trivDecomp trivSpect trivPeaks
      ((21 : ℤ).toNat + 20) ⟨[[0]], [0], 0⟩).map (fun st => (st.srcIdx, st.i))
    = some ([0], 21)
  rw [h3]
  rfl

/-- C7: with an empty active frequency-bin set, `_process` produces no
result for every choice of collaborators and inputs (the `np.argmax` of an
empty array raises): the seeding pass computes nothing, reference-frequency
selection yields no bin, and the call fails before any matrix work. -/
theorem claim_C7_empty_bins_fail_fast (numIter : ℤ) (numSrc : ℕ)
    (modeVec : ℕ → Fin M → ℕ → α) (X : Fin M → ℕ → Fin S → α) (mag : α → γ)
    (corr : (Fin M → ℕ → Fin S → α) → ℕ → Matrix (Fin M) (Fin M) α)
    (spect : Matrix (Fin M) (Fin M) α → ℕ → σ) (recip : σ → σ)
    (peaks : σ → List ℕ)
    (decomp : Matrix (Fin M) (Fin M) α → Matrix (Fin M) (Fin M) α) :
    process numIter numSrc modeVec ([] : List ℕ) X mag corr spect recip peaks decomp = none
    ∧ selectF0 mag X ([] : List ℕ) = none
    ∧ seed spect recip peaks (corr X) ([] : List ℕ) numSrc = ([], [], []) :=
  ⟨rfl, rfl, rfl⟩

/-- C8: after every iteration of the main loop the direction-estimate set
β is `src_idx` broadcast to every active frequency bin: a successful body
execution returns `beta = np.tile(src_idx, (num_freq, 1))`, i.e. a list of
`num_freq` copies of the new `src_idx`, and any successful run of the loop
either performed no iteration or left β in that broadcast shape. -/
theorem claim_C8_beta_broadcast (numIter : ℤ) (numSrc : ℕ)
    (modeVec : ℕ → Fin M → ℕ → α) (bins : List ℕ) (f0 : ℕ)
    (Chat : ℕ → Matrix (Fin M) (Fin M) α)
    (decomp : Matrix (Fin M) (Fin M) α → Matrix (Fin M) (Fin M) α)
    (spect : Matrix (Fin M) (Fin M) α → ℕ → σ) (peaks : σ → List ℕ)
    (st st2 : LoopState) (fuel : ℕ) :
    (stepBody modeVec bins f0 Chat decomp spect peaks st = some st2 →
      st2.beta = List.replicate bins.length st2.srcIdx ∧
      st2.beta.length = bins.length ∧
      ∀ b ∈ st2.beta, b = st2.srcIdx)
    ∧ (runLoop numIter numSrc modeVec bins f0 Chat decomp spect peaks fuel st = some st2 →
      st2 = st ∨ st2.beta = List.replicate bins.length st2.srcIdx) := by
  constructor
  · intro h
    have hb := (stepBody_some_shape _ _ _ _ _ _ _ _ _ h).2
    refine ⟨hb, by rw [hb]; simp, fun b hbm => ?_⟩
    rw [hb] at hbm
    exact List.eq_of_mem_replicate hbm
  · exact runLoop_beta_shape numIter numSrc modeVec bins f0 Chat decomp spect peaks fuel st st2

/-- Witness for C8 on a concrete body execution. -/
theorem claim_C8_beta_broadcast_witness :
    ([[0]] : List (List ℕ)) = List.replicate ([0] : List ℕ).length ([0] : List ℕ)
    ∧ ([[0]] : List (List ℕ)).length = ([0] : List ℕ).length
    ∧ ∀ b ∈ ([[0]] : List (List ℕ)), b = ([0] : List ℕ) :=
  (claim_C8_beta_broadcast 5 1 trivModeVec [0] 0 trivChat trivDecomp trivSpect trivPeaks
    ⟨[[0]], [0], 0⟩ ⟨[[0]], [0], 1⟩ 0).1 (trivStep ⟨[[0]], [0], 0⟩ rfl)

/-- C10: at the first evaluation of the main-loop guard, `src_idx` holds
the seeding peak list of the last active frequency bin; consequently, when
`num_iter ≤ 0` and that last bin's seeding peak list already has at least
`num_src` entries, the main loop executes zero iterations and the final
direction estimate is exactly that list. -/
theorem claim_C10_last_bin_decides (numIter : ℤ) (numSrc : ℕ)
    (modeVec : ℕ → Fin M → ℕ → α) (bins : List ℕ) (X : Fin M → ℕ → Fin S → α)
    (mag : α → γ)
    (corr : (Fin M → ℕ → Fin S → α) → ℕ → Matrix (Fin M) (Fin M) α)
    (spect : Matrix (Fin M) (Fin M) α → ℕ → σ) (recip : σ → σ)
    (peaks : σ → List ℕ)
    (decomp : Matrix (Fin M) (Fin M) α → Matrix (Fin M) (Fin M) α)
    (hne : bins ≠ []) (hit : numIter ≤ 0)
    (hlen : numSrc ≤ (peaks (recip (spect (corr X (bins.length - 1))
        (bins.getD (bins.length - 1) 0)))).length) :
    (seed spect recip peaks (corr X) bins numSrc).2.2
        = peaks (recip (spect (corr X (bins.length - 1)) (bins.getD (bins.length - 1) 0)))
    ∧ process numIter numSrc modeVec bins X mag corr spect recip peaks decomp
        = some ((seed spect recip peaks (corr X) bins numSrc).2.2, 0) := by
  have hpos : 0 < bins.length := List.length_pos.mpr hne
  have hsrc : (seed spect recip peaks (corr X) bins numSrc).2.2
      = peaks (recip (spect (corr X (bins.length - 1)) (bins.getD (bins.length - 1) 0))) := by
    unfold seed
    rw [seedAux_src _ _ _ hpos]
  refine ⟨hsrc, ?_⟩
  obtain ⟨idx, hidx, hf0⟩ := selectF0_of_ne_nil mag X bins hne
  have hguard : ¬ loopGuard numIter numSrc 0
      (seed spect recip peaks (corr X) bins numSrc).2.2 := by
    intro hg
    rcases hg with h | ⟨h1, h2⟩
    · omega
    · rw [hsrc] at h1
      omega
  unfold process
  simp only [hf0]
  rw [runLoop_guard_false numIter numSrc modeVec bins (bins.getD idx 0) (corr X) decomp
    spect peaks ⟨(seed spect recip peaks (corr X) bins numSrc).1,
      (seed spect recip peaks (corr X) bins numSrc).2.2, 0⟩ hguard (numIter.toNat + 20)]
  rfl

/-- Witness for C10 on the concrete instance with `num_iter = 0`. -/
theorem claim_C10_last_bin_decides_witness :
    process 0 1 trivModeVec [0] trivX trivMag trivCorr trivSpect trivRecip trivPeaks
        trivDecomp
      = some ((seed trivSpect trivRecip trivPeaks (trivCorr trivX) [0] 1).2.2, 0) :=
  (claim_C10_last_bin_decides 0 1 trivModeVec [0] trivX trivMag trivCorr trivSpect
    trivRecip trivPeaks trivDecomp (by simp) (by decide) (by decide)).2

/-- C3: the combined covariance is `R = Σ_j Tj · Ĉ_j · Tj^H` summed over ALL
active frequency-bin positions `j in range(len(freq_bins))`, each `Ĉ_j`
being the per-bin covariance passed in (computed once in `_process`, never
re-estimated — `Chat` appears unchanged in the loop body's result); the
seeding invalid/desired-frequency data is not an input of `_coherent_sum`
at all, so it cannot affect which bins are summed. -/
theorem claim_C3_sum_over_all_bins (modeVec : ℕ → Fin M → ℕ → α) (bins : List ℕ)
    (f0 : ℕ) (beta : List (List ℕ)) (Chat : ℕ → Matrix (Fin M) (Fin M) α)
    (decomp : Matrix (Fin M) (Fin M) α → Matrix (Fin M) (Fin M) α)
    (spect : Matrix (Fin M) (Fin M) α → ℕ → σ) (peaks : σ → List ℕ)
    (h : ∀ j < bins.length,
        (augBasis (modeVec (bins.getD j 0)) (beta.getD j [])).det ≠ 0) :
    coherentSum modeVec bins f0 beta Chat
        = some (((List.range bins.length).map fun j =>
            focusTD modeVec f0 (bins.getD j 0) (beta.getD j []) * Chat j *
              (focusTD modeVec f0 (bins.getD j 0) (beta.getD j [])).conjTranspose).sum)
    ∧ (∀ st : LoopState, st.beta = beta →
        stepBody modeVec bins f0 Chat decomp spect peaks st
          = some ⟨List.replicate bins.length (peaks (spect
                (decomp (((List.range bins.length).map fun j =>
                  focusTD modeVec f0 (bins.getD j 0) (beta.getD j []) * Chat j *
                    (focusTD modeVec f0 (bins.getD j 0) (beta.getD j [])).conjTranspose).sum)
                  * (decomp (((List.range bins.length).map fun j =>
                  focusTD modeVec f0 (bins.getD j 0) (beta.getD j []) * Chat j *
                    (focusTD modeVec f0 (bins.getD j 0) (beta.getD j [])).conjTranspose).sum)).conjTranspose)
                f0)),
              peaks (spect
                (decomp (((List.range bins.length).map fun j =>
                  focusTD modeVec f0 (bins.getD j 0) (beta.getD j []) * Chat j *
                    (focusTD modeVec f0 (bins.getD j 0) (beta.getD j [])).conjTranspose).sum)
                  * (decomp (((List.range bins.length).map fun j =>
                  focusTD modeVec f0 (bins.getD j 0) (beta.getD j []) * Chat j *
                    (focusTD modeVec f0 (bins.getD j 0) (beta.getD j [])).conjTranspose).sum)).conjTranspose)
                f0),
              st.i + 1⟩) := by
  have hsum : coherentSum modeVec bins f0 beta Chat
      = some (((List.range bins.length).map fun j =>
          focusTD modeVec f0 (bins.getD j 0) (beta.getD j []) * Chat j *
            (focusTD modeVec f0 (bins.getD j 0) (beta.getD j [])).conjTranspose).sum) := by
    unfold coherentSum
    rw [coherentSumGo_eq_sum modeVec bins f0 beta Chat (List.range bins.length) 0
      (fun j hj => h j (List.mem_range.mp hj))]
    rw [zero_add]
  refine ⟨hsum, fun st hb => ?_⟩
  unfold stepBody
  rw [hb, hsum]

/-- Witness for C3 on the concrete instance. -/
theorem claim_C3_sum_over_all_bins_witness :
    coherentSum trivModeVec [0] 0 [[0]] trivChat
      = some (((List.range ([0] : List ℕ).length).map fun j =>
          focusTD trivModeVec 0 (([0] : List ℕ).getD j 0)
              (([[0]] : List (List ℕ)).getD j []) * trivChat j *
            (focusTD trivModeVec 0 (([0] : List ℕ).getD j 0)
              (([[0]] : List (List ℕ)).getD j [])).conjTranspose).sum) :=
  (claim_C3_sum_over_all_bins trivModeVec [0] 0 [[0]] trivChat trivDecomp trivSpect
    trivPeaks (by
      intro j hj
      have hj0 : j = 0 := by simp at hj; omega
      subst hj0
      rw [Matrix.det_fin_one]
      simp [augBasis, trivModeVec])).1

/-- C4: for a bin with direction set `b` of size `p < M`, the augmented
basis `[A|B]` stacks the bin's steering vectors for the directions of `b`
in its first `p` columns and the last `M - p` standard basis vectors in
the remaining columns (the same fixed complement on both sides, since
`augBasis` is applied to both `k` and `f0` with the same `b`), and the
focusing transform is `[A0|B] · ([Aj|B])⁻¹` whenever the inversion
succeeds. -/
theorem claim_C4_focusing_transform (modeVec : ℕ → Fin M → ℕ → α) (f0 k : ℕ)
    (b : List ℕ) (hp : b.length < M) :
    (∀ (c : Fin M) (hc : (c : ℕ) < b.length),
        (fun m => augBasis (modeVec k) b m c) = fun m => modeVec k m (b.get ⟨(c : ℕ), hc⟩))
    ∧ (∀ c : Fin M, b.length ≤ (c : ℕ) →
        (fun m => augBasis (modeVec k) b m c) = (Pi.single c 1 : Fin M → α))
    ∧ ((augBasis (modeVec k) b).det ≠ 0 →
        focusT modeVec f0 k b
          = some (augBasis (modeVec f0) b * (augBasis (modeVec k) b)⁻¹)) := by
  refine ⟨?_, ?_, ?_⟩
  · intro c hc
    funext m
    unfold augBasis
    rw [Matrix.of_apply, dif_pos hc]
  · intro c hcge
    funext m
    unfold augBasis
    rw [Matrix.of_apply, dif_neg (by omega), Pi.single_apply]
    by_cases he : m = c
    · subst he
      simp
    · rw [if_neg (fun hv => he (Fin.ext hv)), if_neg he]
  · intro hdet
    unfold focusT matInv
    rw [if_neg hdet]
    simp only [Option.map_some']
    rw [matInvD_eq_inv]

/-- Witness for C4 with one sensor and an empty direction set. -/
theorem claim_C4_focusing_transform_witness :
    focusT trivModeVec 0 0 ([] : List ℕ)
        = some (augBasis (trivModeVec 0) [] * (augBasis (trivModeVec 0) [])⁻¹)
    ∧ (fun m => augBasis (trivModeVec 0) ([] : List ℕ) m 0) = (Pi.single 0 1 : Fin 1 → ℚ) := by
  have H := claim_C4_focusing_transform trivModeVec 0 0 ([] : List ℕ) (by decide)
  exact ⟨H.2.2 (by rw [Matrix.det_fin_one]; simp [augBasis]), H.2.1 0 (by decide)⟩

/-- C5: the reference frequency `f0` is the active bin maximizing the sum
over sensors and time samples of the magnitude of the observation tensor,
ties broken by the lowest bin position, and it is always an element of the
active frequency-bin list. -/
theorem claim_C5_reference_frequency (mag : α → γ) (X : Fin M → ℕ → Fin S → α)
    (bins : List ℕ) (hne : bins ≠ []) :
    ∃ (idx : ℕ) (hidx : idx < bins.length),
      selectF0 mag X bins = some (bins.get ⟨idx, hidx⟩)
      ∧ bins.get ⟨idx, hidx⟩ ∈ bins
      ∧ (∀ j (hj : j < bins.length),
          (Finset.univ.sum fun m : Fin M => Finset.univ.sum fun t : Fin S =>
            mag (X m (bins.get ⟨j, hj⟩) t))
          ≤ Finset.univ.sum fun m : Fin M => Finset.univ.sum fun t : Fin S =>
            mag (X m (bins.get ⟨idx, hidx⟩) t))
      ∧ (∀ j (hj : j < bins.length), j < idx →
          (Finset.univ.sum fun m : Fin M => Finset.univ.sum fun t : Fin S =>
            mag (X m (bins.get ⟨j, hj⟩) t))
          < Finset.univ.sum fun m : Fin M => Finset.univ.sum fun t : Fin S =>
            mag (X m (bins.get ⟨idx, hidx⟩) t)) := by
  have hne2 : binEnergies mag X bins ≠ [] := by
    unfold binEnergies
    simpa using hne
  obtain ⟨idx, hidx, heq, hmax, hfirst⟩ := argmaxIdx_spec (binEnergies mag X bins) hne2
  have hlen : (binEnergies mag X bins).length = bins.length := by
    unfold binEnergies
    simp
  have hidx2 : idx < bins.length := by omega
  have hget : ∀ j (hj : j < bins.length) (hj2 : j < (binEnergies mag X bins).length),
      (binEnergies mag X bins).get ⟨j, hj2⟩
        = Finset.univ.sum fun m : Fin M => Finset.univ.sum fun t : Fin S =>
            mag (X m (bins.get ⟨j, hj⟩) t) := by
    intro j hj hj2
    unfold binEnergies
    rw [List.get_eq_getElem, List.getElem_map, List.get_eq_getElem]
  refine ⟨idx, hidx2, ?_, List.get_mem bins idx hidx2, ?_, ?_⟩
  · unfold selectF0
    rw [heq]
    simp only [Option.map_some']
    rw [List.getD_eq_getElem bins 0 hidx2, List.get_eq_getElem]
  · intro j hj
    have h := hmax j (by omega)
    rw [hget j hj (by omega), hget idx hidx2 hidx] at h
    exact h
  · intro j hj hlt
    have h := hfirst j (by omega) hlt
    rw [hget j hj (by omega), hget idx hidx2 hidx] at h
    exact h

/-- Witness for C5: two bins with energies 1 and 2; bin 7 is selected. -/
theorem claim_C5_reference_frequency_witness :
    ∃ (idx : ℕ) (hidx : idx < ([3, 7] : List ℕ).length),
      selectF0 trivMag witX [3, 7] = some (([3, 7] : List ℕ).get ⟨idx, hidx⟩)
      ∧ ([3, 7] : List ℕ).get ⟨idx, hidx⟩ ∈ ([3, 7] : List ℕ)
      ∧ (∀ j (hj : j < ([3, 7] : List ℕ).length),
          (Finset.univ.sum fun m : Fin 1 => Finset.univ.sum fun t : Fin 1 =>
            trivMag (witX m (([3, 7] : List ℕ).get ⟨j, hj⟩) t))
          ≤ Finset.univ.sum fun m : Fin 1 => Finset.univ.sum fun t : Fin 1 =>
            trivMag (witX m (([3, 7] : List ℕ).get ⟨idx, hidx⟩) t))
      ∧ (∀ j (hj : j < ([3, 7] : List ℕ).length), j < idx →
          (Finset.univ.sum fun m : Fin 1 => Finset.univ.sum fun t : Fin 1 =>
            trivMag (witX m (([3, 7] : List ℕ).get ⟨j, hj⟩) t))
          < Finset.univ.sum fun m : Fin 1 => Finset.univ.sum fun t : Fin 1 =>
            trivMag (witX m (([3, 7] : List ℕ).get ⟨idx, hidx⟩) t)) :=
  claim_C5_reference_frequency trivMag witX [3, 7] (by simp)

/-- C6: if the augmented basis `[Aj|B]` of some bin is singular, the
inversion in `_coherent_sum` yields no combined covariance, the loop body
produces no state, and a running loop aborts the whole call with no
result — the failing bin is neither retried nor skipped. -/
theorem claim_C6_singular_aborts (numIter : ℤ) (numSrc : ℕ)
    (modeVec : ℕ → Fin M → ℕ → α) (bins : List ℕ) (f0 : ℕ)
    (beta : List (List ℕ)) (Chat : ℕ → Matrix (Fin M) (Fin M) α)
    (decomp : Matrix (Fin M) (Fin M) α → Matrix (Fin M) (Fin M) α)
    (spect : Matrix (Fin M) (Fin M) α → ℕ → σ) (peaks : σ → List ℕ)
    (j0 : ℕ) (hj0 : j0 < bins.length)
    (hdet : (augBasis (modeVec (bins.getD j0 0)) (beta.getD j0 [])).det = 0) :
    coherentSum modeVec bins f0 beta Chat = none
    ∧ (∀ st : LoopState, st.beta = beta →
        stepBody modeVec bins f0 Chat decomp spect peaks st = none)
    ∧ (∀ (st : LoopState) (fuel : ℕ), st.beta = beta →
        loopGuard numIter numSrc st.i st.srcIdx →
        runLoop numIter numSrc modeVec bins f0 Chat decomp spect peaks (fuel + 1) st
          = none) := by
  have hnone : coherentSum modeVec bins f0 beta Chat = none := by
    unfold coherentSum
    exact coherentSumGo_none modeVec bins f0 beta Chat (List.range bins.length) 0
      ⟨j0, List.mem_range.mpr hj0, hdet⟩
  have hstep : ∀ st : LoopState, st.beta = beta →
      stepBody modeVec bins f0 Chat decomp spect peaks st = none := by
    intro st hb
    unfold stepBody
    rw [hb, hnone]
  refine ⟨hnone, hstep, ?_⟩
  intro st fuel hb hg
  unfold runLoop
  rw [if_pos hg, hstep st hb]

/-- Witness for C6: zero steering vectors make the single bin's augmented
basis singular and the coherent sum aborts. -/
theorem claim_C6_singular_aborts_witness :
    coherentSum zeroModeVec [0] 0 [[0]] trivChat = none :=
  (claim_C6_singular_aborts 5 1 zeroModeVec [0] 0 [[0]] trivChat trivDecomp trivSpect
    trivPeaks 0 (by decide)
    (by rw [Matrix.det_fin_one]; simp [augBasis, zeroModeVec])).1

/-- C9: if every bin's steering vectors for its current direction set agree
with the reference bin's steering vectors for the same directions, then
every focusing transform is the identity matrix and the combined
covariance equals the plain sum of the per-bin covariance matrices. -/
theorem claim_C9_identity_focusing (modeVec : ℕ → Fin M → ℕ → α) (bins : List ℕ)
    (f0 : ℕ) (beta : List (List ℕ)) (Chat : ℕ → Matrix (Fin M) (Fin M) α)
    (hsame : ∀ j < bins.length, ∀ (m : Fin M) (d : ℕ), d ∈ beta.getD j [] →
        modeVec (bins.getD j 0) m d = modeVec f0 m d)
    (hdet : ∀ j < bins.length,
        (augBasis (modeVec (bins.getD j 0)) (beta.getD j [])).det ≠ 0) :
    (∀ j < bins.length, focusTD modeVec f0 (bins.getD j 0) (beta.getD j []) = 1)
    ∧ coherentSum modeVec bins f0 beta Chat
        = some (((List.range bins.length).map Chat).sum) := by
  have haug : ∀ j < bins.length,
      augBasis (modeVec (bins.getD j 0)) (beta.getD j [])
        = augBasis (modeVec f0) (beta.getD j []) := by
    intro j hj
    exact augBasis_congr _ _ _ (fun m d hd => hsame j hj m d hd)
  have hT : ∀ j < bins.length,
      focusTD modeVec f0 (bins.getD j 0) (beta.getD j []) = 1 := by
    intro j hj
    unfold focusTD
    rw [← haug j hj]
    exact matInvD_mul_cancel _ (hdet j hj)
  refine ⟨hT, ?_⟩
  unfold coherentSum
  rw [coherentSumGo_eq_sum modeVec bins f0 beta Chat (List.range bins.length) 0
    (fun j hj => hdet j (List.mem_range.mp hj))]
  rw [zero_add]
  have hmap : ((List.range bins.length).map fun j =>
      focusTD modeVec f0 (bins.getD j 0) (beta.getD j []) * Chat j *
        (focusTD modeVec f0 (bins.getD j 0) (beta.getD j [])).conjTranspose)
      = (List.range bins.length).map Chat := by
    apply List.map_congr_left
    intro j hj
    rw [hT j (List.mem_range.mp hj), Matrix.conjTranspose_one, one_mul, mul_one]
  rw [hmap]

/-- Witness for C9 on the concrete instance with constant steering
vectors. -/
theorem claim_C9_identity_focusing_witness :
    coherentSum trivModeVec [0] 0 [[0]] trivChat
      = some (((List.range ([0] : List ℕ).length).map trivChat).sum) :=
  (claim_C9_identity_focusing trivModeVec [0] 0 [[0]] trivChat
    (fun j hj m d hd => rfl)
    (by
      intro j hj
      have hj0 : j = 0 := by simp at hj; omega
      subst hj0
      rw [Matrix.det_fin_one]
      simp [augBasis, trivModeVec])).2

end CSSM
